import Mathlib

/-!
Verification of the multiresolution hash-grid positional encoder
(`wisp/ops/grid.py`): a shallow embedding of the reference encoder
`hashgrid_naive`, the autograd wrapper `HashGridInterpolate` and the
accelerated entry point `hashgrid`, together with theorems about the
spatial index function, trilinear interpolation, clipping, shapes and
the forward/backward contracts.

Conventions of the embedding:
* floating-point tensors are modelled over `ℚ` (exact arithmetic);
* integer tensors are modelled over `ℤ`; the `.short()` int16 cast of
  the floored base corner is modelled by `toInt16`, the
  two's-complement wraparound to `[-2^15, 2^15)`;
* a batch of 3d coordinates is a `List (ℚ × ℚ × ℚ)`, a 2d feature
  tensor is a `List (List ℚ)` of its rows;
* Python/torch advanced indexing (which accepts negative indices by
  wrapping around, and raises on anything further out of range) is
  modelled by `pyGet`, returning a default outside the valid range.
-/

/-- The three hash constants of `wisp/ops/grid.py` (`PRIMES`). -/
def PRIMES : List ℤ := [1, 2654435761, 805459861]

/-- The clip epsilon `1e-5` used in `hashgrid_naive`; `ℚ` stands in for
the float literal. -/
def EPS : ℚ := 1 / 100000

/-- Implements `torch.clip(((x + 1.0) / 2.0) * res, 0, res-1-1e-5)` for a single
coordinate.  `torch.clip` applies the lower bound first and the upper
bound second, so for `res = 1` (negative upper bound) the result is the
upper bound. -/
def tfCoord (res : ℕ) (x : ℚ) : ℚ :=
  min (max (((x + 1) / 2) * (res : ℚ)) 0) ((res : ℚ) - 1 - EPS)

/-- Implements the `.short()` cast of the floored corner: conversion
to int16, i.e. two's-complement wraparound into `[-32768, 32768)`
(`32768 = 2^15`, `65536 = 2^16`). -/
def toInt16 (z : ℤ) : ℤ := (z + 32768) % 65536 - 32768

/-- Implements `cc000 = torch.floor(tf_coords).short()` componentwise:
the floor, cast to int16. -/
def baseCorner (res : ℕ) (p : ℚ × ℚ × ℚ) : ℤ × ℤ × ℤ :=
  (toInt16 ⌊tfCoord res p.1⌋, toInt16 ⌊tfCoord res p.2.1⌋,
   toInt16 ⌊tfCoord res p.2.2⌋)

/-- Implements `x = tf_coords - cc000` componentwise (the fractional offset inside
the cell); `cc000` is the int16-cast base corner, so for resolutions
large enough to wrap the cast this offset can leave `[0, 1)`. -/
def fracOffset (res : ℕ) (p : ℚ × ℚ × ℚ) : ℚ × ℚ × ℚ :=
  (tfCoord res p.1 - (toInt16 ⌊tfCoord res p.1⌋ : ℚ),
   tfCoord res p.2.1 - (toInt16 ⌊tfCoord res p.2.1⌋ : ℚ),
   tfCoord res p.2.2 - (toInt16 ⌊tfCoord res p.2.2⌋ : ℚ))

/-- The eight corner offsets of a unit cell, axis-major bit order:
corner `k` is offset by bit 2 of `k` on the x axis, bit 1 on y, bit 0
on z. -/
def cornerOffsets : List (ℤ × ℤ × ℤ) :=
  [(0, 0, 0), (0, 0, 1), (0, 1, 0), (0, 1, 1),
   (1, 0, 0), (1, 0, 1), (1, 1, 0), (1, 1, 1)]

/-- Modelled from the spec: `kaolin.ops.spc.points_to_corners` (the
kaolin dependency is not part of these sources).  Per spec 4.2 the
other 7 corners are `c000` offset by `{0,1}` independently in each
axis, in the axis-major bit order `000,001,...,111` that matches the
trilinear weight order of 4.3 index for index. -/
def points_to_corners (c : ℤ × ℤ × ℤ) : List (ℤ × ℤ × ℤ) :=
  cornerOffsets.map (fun o => (c.1 + o.1, c.2.1 + o.2.1, c.2.2 + o.2.2))

/-- The hashed-regime slot
`((cc0 * PRIMES[0]) ^ (cc1 * PRIMES[1]) ^ (cc2 * PRIMES[2])) % codebook_size`
(`Int.xor` has the two's-complement semantics of Python/torch int64
xor, and `%` on `ℤ` is `emod`, matching the sign convention of the
Python modulo for a positive modulus). -/
def hashSlot (bw : ℕ) (c : ℤ × ℤ × ℤ) : ℤ :=
  (Int.xor (Int.xor (c.1 * PRIMES.getD 0 0) (c.2.1 * PRIMES.getD 1 0))
      (c.2.2 * PRIMES.getD 2 0)) % (2 : ℤ) ^ bw

/-- The dense-regime slot `cc0 + cc1 * res + cc2 * res * res`. -/
def denseSlot (res : ℕ) (c : ℤ × ℤ × ℤ) : ℤ :=
  c.1 + c.2.1 * (res : ℤ) + c.2.2 * (res : ℤ) * (res : ℤ)

/-- The per-corner codebook index: the source picks the hashed slot
when `num_pts > codebook_size` (`res**3 > 2**bitwidth`) and the dense
slot otherwise. -/
def gridSlot (res bw : ℕ) (c : ℤ × ℤ × ℤ) : ℤ :=
  if 2 ^ bw < res ^ 3 then hashSlot bw c else denseSlot res c

/-- Python/torch integer indexing into a list: a negative index wraps
around once (`l[-k]` is `l[len l - k]`); anything else out of range is
an error, modelled by the default. -/
def pyGet {α : Type} (l : List α) (i : ℤ) (d : α) : α :=
  if 0 ≤ i then l.getD i.toNat d
  else if (-i).toNat ≤ l.length then l.getD (l.length - (-i).toNat) d
  else d

/-- Implements `codebook[first_idx : first_idx + size][cidx]`: one gathered row of
the level's codebook segment. -/
def fetch (codebook : List (List ℚ)) (first size : ℕ) (idx : ℤ) : List ℚ :=
  pyGet ((codebook.drop first).take size) idx []

/-- The eight trilinear weights, in the source's `coeffs[...,0..7]`
order (axis 0 is the most significant bit, matching `cornerOffsets`). -/
def triCoeffs (x : ℚ × ℚ × ℚ) : List ℚ :=
  [(1 - x.1) * (1 - x.2.1) * (1 - x.2.2),
   (1 - x.1) * (1 - x.2.1) * x.2.2,
   (1 - x.1) * x.2.1 * (1 - x.2.2),
   (1 - x.1) * x.2.1 * x.2.2,
   x.1 * (1 - x.2.1) * (1 - x.2.2),
   x.1 * (1 - x.2.1) * x.2.2,
   x.1 * x.2.1 * (1 - x.2.2),
   x.1 * x.2.1 * x.2.2]

/-- Scale a feature row by a weight. -/
def smul (w : ℚ) (v : List ℚ) : List ℚ := v.map (fun a => w * a)

/-- Componentwise sum of two feature rows. -/
def vecAdd (u v : List ℚ) : List ℚ := List.zipWith (fun a b => a + b) u v

/-- Sum of a list of feature rows (the `.sum(1)` reduction over the
8 corners). -/
def vsum : List (List ℚ) → List ℚ
  | [] => []
  | [v] => v
  | v :: rest => vecAdd v (vsum rest)

/-- Implements `(fs * coeffs).sum(1)` for one sample at one level, given the cell
base corner and the fractional offset: gather the 8 corner rows and
reduce them with the 8 trilinear weights. -/
def interpCell (codebook : List (List ℚ)) (first size res bw : ℕ)
    (c000 : ℤ × ℤ × ℤ) (x : ℚ × ℚ × ℚ) : List ℚ :=
  vsum (List.zipWith
    (fun w crn => smul w (fetch codebook first size (gridSlot res bw crn)))
    (triCoeffs x) (points_to_corners c000))

/-- The whole per-level body of the `hashgrid_naive` loop for one
sample: transform the coordinate, enumerate corners, index, gather and
reduce. -/
def levelFeat (codebook : List (List ℚ)) (first size res bw : ℕ)
    (p : ℚ × ℚ × ℚ) : List ℚ :=
  interpCell codebook first size res bw (baseCorner res p) (fracOffset res p)

/-- Implements `torch.cat(feats, -1)`: concatenate the per-level feature batches
along the feature axis. -/
def catFeats : List (List (List ℚ)) → List (List ℚ)
  | [] => []
  | [a] => a
  | a :: rest => List.zipWith (fun u v => u ++ v) a (catFeats rest)

/-- The reference encoder `hashgrid_naive` of `wisp/ops/grid.py`:
levels `0..lod_idx` of the resolution schedule are evaluated in order
and concatenated along the feature axis. -/
def hashgrid_naive (coords : List (ℚ × ℚ × ℚ)) (resolutions : List ℕ)
    (codebook_bitwidth lod_idx : ℕ) (codebook : List (List ℚ))
    (codebook_lod_sizes codebook_lod_first_idx : List ℕ) : List (List ℚ) :=
  catFeats (((resolutions.take (lod_idx + 1)).enum).map (fun ir =>
    coords.map (levelFeat codebook (codebook_lod_first_idx.getD ir.1 0)
      (codebook_lod_sizes.getD ir.1 0) ir.2 codebook_bitwidth)))

/-- Modelled from the spec: the CUDA kernel
`wisp._C.ops.hashgrid_interpolate_cuda` (its source is not under these
sources).  Per spec 2/4.4 it computes the same per-level gather+reduce
as the reference path; it receives no `lod_idx` (see the source call
site and its TODO), so it evaluates every level of the schedule, and it
receives no segment sizes, so it derives them as
`min(res^3, 2^bitwidth)` (spec 3, codebook invariants). -/
def hashgrid_interpolate_cuda (coords : List (ℚ × ℚ × ℚ))
    (codebook : List (List ℚ)) (codebook_first_idx : List ℕ)
    (resolutions : List ℕ) (bw : ℕ) : List (List ℚ) :=
  coords.map (fun p =>
    (resolutions.enum.map (fun ir =>
      levelFeat codebook (codebook_first_idx.getD ir.1 0)
        (min (ir.2 ^ 3) (2 ^ bw)) ir.2 bw p)).flatten)

/-- The context saved by `HashGridInterpolate.forward`
(`ctx.save_for_backward` plus the scalar fields set on `ctx`). -/
structure SavedCtx where
  coords : List (ℚ × ℚ × ℚ)
  codebook : List (List ℚ)
  codebook_first_idx : List ℕ
  resolutions : List ℕ
  num_lods : ℕ
  codebook_size : ℕ
  codebook_bitwidth : ℕ
  feature_dim : ℕ

/-- The message of the odd-feature-width guard in
`HashGridInterpolate.forward`. -/
def oddFeatureMsg : String :=
  "The codebook feature dimension needs to be a multiple of 2."

/-- The message for a failing `reshape` in `hashgrid`. -/
def reshapeMsg : String :=
  "shape is invalid for input size"

namespace HashGridInterpolate

/-- Implements `HashGridInterpolate.forward`: guard on an odd feature width
(`codebook[0].shape[-1] % 2 == 1`), then invoke the accelerated kernel
and save the context.  The kernel is passed as a parameter so that
independence of the error path from the kernel is expressible;
`hashgrid` below instantiates it with `hashgrid_interpolate_cuda`. -/
def forward
    (kernel : List (ℚ × ℚ × ℚ) → List (List ℚ) → List ℕ → List ℕ → ℕ →
      List (List ℚ))
    (coords : List (ℚ × ℚ × ℚ)) (resolutions : List ℕ)
    (codebook_bitwidth lod_idx : ℕ) (codebook : List (List ℚ))
    (codebook_sizes codebook_first_idx : List ℕ) :
    Except String (List (List ℚ) × SavedCtx) :=
  if (codebook.headD []).length % 2 = 1 then
    Except.error (oddFeatureMsg)
  else
    Except.ok
      (kernel coords codebook codebook_first_idx resolutions codebook_bitwidth,
       SavedCtx.mk coords codebook codebook_first_idx resolutions
         resolutions.length (2 ^ codebook_bitwidth) codebook_bitwidth
         (codebook.headD []).length)

end HashGridInterpolate

/-- The all-zero gradient buffer, of the codebook's shape. -/
def zeroGradBuffer (codebook : List (List ℚ)) : List (List ℚ) :=
  codebook.map (fun row => List.replicate row.length 0)

/-- Add a row into the gradient buffer at slot `j` (accumulating, not
overwriting). -/
def addRowAt (buf : List (List ℚ)) (j : ℕ) (v : List ℚ) : List (List ℚ) :=
  buf.set j (vecAdd (buf.getD j []) v)

/-- The scatter-add of one (sample, level) pair: for each of the
8 corners, accumulate `weight_k * grad_output_level_slice` into the
buffer at the corner's flat codebook slot. -/
def scatterSample (resolutions first_idx : List ℕ) (bw F : ℕ)
    (p : ℚ × ℚ × ℚ) (g : List ℚ) (buf : List (List ℚ)) : List (List ℚ) :=
  resolutions.enum.foldl (fun buf ir =>
    let first := first_idx.getD ir.1 0
    let res := ir.2
    let gslice := (g.drop (ir.1 * F)).take F
    (List.zipWith (fun w crn =>
        (first, w, (gridSlot res bw crn).toNat))
      (triCoeffs (fracOffset res p)) (points_to_corners (baseCorner res p))).foldl
      (fun buf wc => addRowAt buf (wc.1 + wc.2.2) (smul wc.2.1 gslice)) buf) buf

/-- Modelled from the spec: the CUDA backward kernel
`wisp._C.ops.hashgrid_interpolate_backward_cuda` (its source is not
under these sources).  Per spec 6 its final boolean argument carries
the caller's needs-gradient indication: if it is false the kernel
returns the all-zero gradient buffer immediately; otherwise it replays
the forward indexing and weights and scatter-accumulates
`weight_k * grad_output` into the codebook-shaped buffer (spec 4.6). -/
def hashgrid_interpolate_backward_cuda (coords : List (ℚ × ℚ × ℚ))
    (grad_output : List (List ℚ)) (codebook : List (List ℚ))
    (codebook_first_idx : List ℕ) (resolutions : List ℕ)
    (bw F : ℕ) (needs_grad : Bool) : List (List ℚ) :=
  if needs_grad then
    (List.zip coords grad_output).foldl
      (fun buf pg => scatterSample resolutions codebook_first_idx bw F pg.1 pg.2 buf)
      (zeroGradBuffer codebook)
  else
    zeroGradBuffer codebook

namespace HashGridInterpolate

/-- Implements `HashGridInterpolate.backward`: replays the saved context into the
backward kernel.  The boolean it forwards is `ctx.needs_input_grad[0]`
(the flag of forward input 0, the coordinates), exactly as in the
source. -/
def backward (ctx : SavedCtx) (grad_output : List (List ℚ))
    (needs_input_grad : List Bool) : List (List ℚ) :=
  hashgrid_interpolate_backward_cuda ctx.coords grad_output ctx.codebook
    ctx.codebook_first_idx ctx.resolutions ctx.codebook_bitwidth
    ctx.feature_dim (needs_input_grad.getD 0 false)

end HashGridInterpolate

/-- Split a flat list into `b` rows of width `w`
(`torch.Tensor.reshape (b, w)` on a flattened input). -/
def chunkRows : ℕ → ℕ → List ℚ → List (List ℚ)
  | 0, _, _ => []
  | Nat.succ b, w, l => l.take w :: chunkRows b w (l.drop w)

/-- Implements `feats.reshape(batch, feature_dim)`: succeeds exactly when the
element count matches, as in torch. -/
def reshape2d (rows : List (List ℚ)) (b w : ℕ) : Option (List (List ℚ)) :=
  if rows.flatten.length = b * w then some (chunkRows b w rows.flatten) else none

/-- The accelerated entry point `hashgrid` of `wisp/ops/grid.py`:
apply `HashGridInterpolate.forward` with the CUDA kernel, then reshape
to `(batch, codebook.shape[1] * len(resolutions))`. -/
def hashgrid (coords : List (ℚ × ℚ × ℚ)) (resolutions : List ℕ)
    (codebook_bitwidth lod_idx : ℕ) (codebook : List (List ℚ))
    (codebook_sizes codebook_first_idx : List ℕ) :
    Except String (List (List ℚ)) :=
  match HashGridInterpolate.forward hashgrid_interpolate_cuda coords resolutions
      codebook_bitwidth lod_idx codebook codebook_sizes codebook_first_idx with
  | Except.error e => Except.error e
  | Except.ok fc =>
      match reshape2d fc.1 coords.length
          ((codebook.headD []).length * resolutions.length) with
      | some out => Except.ok out
      | none => Except.error (reshapeMsg)

/-- Clamping of one coordinate to the advertised input domain `[-1, 1]`. -/
def clampCoord (x : ℚ) : ℚ := min (max x (-1)) 1

/-- Componentwise clamping of a 3d coordinate to `[-1, 1]^3`. -/
def clampPoint (p : ℚ × ℚ × ℚ) : ℚ × ℚ × ℚ :=
  (clampCoord p.1, clampCoord p.2.1, clampCoord p.2.2)

/-- The value of one unit-cube vertex coordinate, as a rational
fractional offset. -/
def vtxQ (b : Bool) : ℚ := cond b 1 0

/-- The value of one unit-cube vertex coordinate, as an integer corner
offset. -/
def vtxZ (b : Bool) : ℤ := cond b 1 0

/-- Validity of the segment metadata (spec 3, codebook invariants):
each level's size is `min(res^3, 2^bitwidth)` and each segment lies
inside the stacked codebook. -/
def SegmentsOK (codebook : List (List ℚ)) (resolutions sizes first_idx : List ℕ)
    (bw : ℕ) : Prop :=
  ∀ i < resolutions.length,
    sizes.getD i 0 = min ((resolutions.getD i 0) ^ 3) (2 ^ bw) ∧
    first_idx.getD i 0 + sizes.getD i 0 ≤ codebook.length

/-- Every codebook row has the feature width `F`. -/
def FeatsOK (codebook : List (List ℚ)) (F : ℕ) : Prop :=
  ∀ f ∈ codebook, f.length = F

instance (codebook : List (List ℚ)) (resolutions sizes first_idx : List ℕ)
    (bw : ℕ) : Decidable (SegmentsOK codebook resolutions sizes first_idx bw) := by
  unfold SegmentsOK; infer_instance

instance (codebook : List (List ℚ)) (F : ℕ) :
    Decidable (FeatsOK codebook F) := by
  unfold FeatsOK; infer_instance

/-! ### Support lemmas: the coordinate transform -/

lemma tfCoord_mem (res : ℕ) (hres : 2 ≤ res) (x : ℚ) :
    0 ≤ tfCoord res x ∧ tfCoord res x ≤ (res : ℚ) - 1 - EPS := by
  have h2 : (2 : ℚ) ≤ (res : ℚ) := by exact_mod_cast hres
  refine ⟨le_min (le_max_right _ _) (by rw [EPS]; linarith), min_le_right _ _⟩

lemma floor_tfCoord_mem (res : ℕ) (hres : 2 ≤ res) (x : ℚ) :
    0 ≤ ⌊tfCoord res x⌋ ∧ ⌊tfCoord res x⌋ ≤ (res : ℤ) - 2 := by
  obtain ⟨h0, h1⟩ := tfCoord_mem res hres x
  refine ⟨Int.floor_nonneg.mpr h0, ?_⟩
  have hflt : (⌊tfCoord res x⌋ : ℚ) < (res : ℚ) - 1 :=
    lt_of_le_of_lt ((Int.floor_le _).trans h1) (by rw [EPS]; linarith)
  have : ⌊tfCoord res x⌋ < (res : ℤ) - 1 := by exact_mod_cast hflt
  omega

lemma tfCoord_res_one (x : ℚ) : ⌊tfCoord 1 x⌋ = -1 := by
  have h1 : tfCoord 1 x = -EPS := by
    have : ((1 : ℕ) : ℚ) - 1 - EPS = -EPS := by push_cast; ring
    rw [tfCoord, this]
    exact min_eq_right ((by rw [EPS]; norm_num : (-EPS : ℚ) ≤ 0).trans (le_max_right _ _))
  rw [h1, Int.floor_eq_iff, EPS]
  norm_num

lemma toInt16_mem (z : ℤ) : -32768 ≤ toInt16 z ∧ toInt16 z < 32768 := by
  rw [toInt16]
  omega

lemma toInt16_eq_self (z : ℤ) (h1 : -32768 ≤ z) (h2 : z < 32768) :
    toInt16 z = z := by
  rw [toInt16]
  omega

/-- Below the wrap threshold of the int16 cast (`res ≤ 32769`, so the
floored corner is at most `32767`), the cast is the identity and the
base corner is the plain floor. -/
lemma baseCorner_eq_floor (res : ℕ) (hres : 2 ≤ res) (h32 : res ≤ 32769)
    (p : ℚ × ℚ × ℚ) :
    baseCorner res p =
      (⌊tfCoord res p.1⌋, ⌊tfCoord res p.2.1⌋, ⌊tfCoord res p.2.2⌋) := by
  obtain ⟨ha0, ha1⟩ := floor_tfCoord_mem res hres p.1
  obtain ⟨hb0, hb1⟩ := floor_tfCoord_mem res hres p.2.1
  obtain ⟨hc0, hc1⟩ := floor_tfCoord_mem res hres p.2.2
  rw [baseCorner, toInt16_eq_self _ (by omega) (by omega),
    toInt16_eq_self _ (by omega) (by omega),
    toInt16_eq_self _ (by omega) (by omega)]

lemma corner_coords_mem (res : ℕ) (hres : 2 ≤ res) (h32 : res ≤ 32769)
    (p : ℚ × ℚ × ℚ) :
    ∀ crn ∈ points_to_corners (baseCorner res p),
      (0 ≤ crn.1 ∧ crn.1 ≤ (res : ℤ) - 1) ∧
      (0 ≤ crn.2.1 ∧ crn.2.1 ≤ (res : ℤ) - 1) ∧
      (0 ≤ crn.2.2 ∧ crn.2.2 ≤ (res : ℤ) - 1) := by
  obtain ⟨ha0, ha1⟩ := floor_tfCoord_mem res hres p.1
  obtain ⟨hb0, hb1⟩ := floor_tfCoord_mem res hres p.2.1
  obtain ⟨hc0, hc1⟩ := floor_tfCoord_mem res hres p.2.2
  intro crn hcrn
  rw [baseCorner_eq_floor res hres h32 p] at hcrn
  simp only [points_to_corners, cornerOffsets, List.map_cons,
    List.map_nil, List.mem_cons, List.not_mem_nil, or_false] at hcrn
  rcases hcrn with h | h | h | h | h | h | h | h <;> subst h <;>
    refine ⟨⟨?_, ?_⟩, ⟨?_, ?_⟩, ?_, ?_⟩ <;> dsimp only <;> omega

/-- For every resolution of at least 2, the int16-cast base corner and
hence every cell corner lies in the signed box `[-(res-1), res-1]`:
below the wrap threshold the corner is the in-range floor, and above it
the int16 range itself is contained in the box. -/
lemma corner_coords_signed_mem (res : ℕ) (hres : 2 ≤ res) (p : ℚ × ℚ × ℚ) :
    ∀ crn ∈ points_to_corners (baseCorner res p),
      (-((res : ℤ) - 1) ≤ crn.1 ∧ crn.1 ≤ (res : ℤ) - 1) ∧
      (-((res : ℤ) - 1) ≤ crn.2.1 ∧ crn.2.1 ≤ (res : ℤ) - 1) ∧
      (-((res : ℤ) - 1) ≤ crn.2.2 ∧ crn.2.2 ≤ (res : ℤ) - 1) := by
  have key : ∀ x : ℚ, -((res : ℤ) - 1) ≤ toInt16 ⌊tfCoord res x⌋ ∧
      toInt16 ⌊tfCoord res x⌋ ≤ (res : ℤ) - 2 := by
    intro x
    obtain ⟨h0, h1⟩ := floor_tfCoord_mem res hres x
    rcases le_or_lt res 32769 with hr | hr
    · rw [toInt16_eq_self _ (by omega) (by omega)]
      omega
    · obtain ⟨t0, t1⟩ := toInt16_mem ⌊tfCoord res x⌋
      have hrz : (32770 : ℤ) ≤ (res : ℤ) := by exact_mod_cast hr
      omega
  obtain ⟨ha0, ha1⟩ := key p.1
  obtain ⟨hb0, hb1⟩ := key p.2.1
  obtain ⟨hc0, hc1⟩ := key p.2.2
  intro crn hcrn
  simp only [points_to_corners, cornerOffsets, baseCorner, List.map_cons,
    List.map_nil, List.mem_cons, List.not_mem_nil, or_false] at hcrn
  rcases hcrn with h | h | h | h | h | h | h | h <;> subst h <;>
    refine ⟨⟨?_, ?_⟩, ⟨?_, ?_⟩, ?_, ?_⟩ <;> dsimp only <;> omega

/-! ### Support lemmas: slot bounds -/

lemma denseSlot_mem (res : ℕ) (c : ℤ × ℤ × ℤ)
    (h1 : 0 ≤ c.1) (h2 : c.1 ≤ (res : ℤ) - 1)
    (h3 : 0 ≤ c.2.1) (h4 : c.2.1 ≤ (res : ℤ) - 1)
    (h5 : 0 ≤ c.2.2) (h6 : c.2.2 ≤ (res : ℤ) - 1) :
    0 ≤ denseSlot res c ∧ denseSlot res c < (res : ℤ) ^ 3 := by
  have hr : (1 : ℤ) ≤ (res : ℤ) := by omega
  constructor
  · have := mul_nonneg h3 (by omega : (0 : ℤ) ≤ (res : ℤ))
    have := mul_nonneg (mul_nonneg h5 (by omega : (0 : ℤ) ≤ (res : ℤ)))
      (by omega : (0 : ℤ) ≤ (res : ℤ))
    rw [denseSlot]; nlinarith
  · rw [denseSlot]; nlinarith [sq_nonneg ((res : ℤ) - 1)]

lemma hashSlot_mem (bw : ℕ) (c : ℤ × ℤ × ℤ) :
    0 ≤ hashSlot bw c ∧ hashSlot bw c < (2 : ℤ) ^ bw := by
  have h2 : (0 : ℤ) < (2 : ℤ) ^ bw := by positivity
  exact ⟨Int.emod_nonneg _ (ne_of_gt h2), Int.emod_lt_of_pos _ h2⟩

/-- In-bounds guarantee for every gather of the reference path: with a
resolution of at least 2 and a segment size `min(res^3, 2^bitwidth)`,
every corner slot is a valid non-negative index into the segment. -/
lemma gridSlot_in_segment (res bw : ℕ) (hres : 2 ≤ res) (c : ℤ × ℤ × ℤ)
    (h1 : 0 ≤ c.1) (h2 : c.1 ≤ (res : ℤ) - 1)
    (h3 : 0 ≤ c.2.1) (h4 : c.2.1 ≤ (res : ℤ) - 1)
    (h5 : 0 ≤ c.2.2) (h6 : c.2.2 ≤ (res : ℤ) - 1) :
    0 ≤ gridSlot res bw c ∧
      (gridSlot res bw c).toNat < min (res ^ 3) (2 ^ bw) := by
  rw [gridSlot]
  by_cases h : 2 ^ bw < res ^ 3
  · rw [if_pos h]
    obtain ⟨g0, g1⟩ := hashSlot_mem bw c
    have hlt : hashSlot bw c < ((2 ^ bw : ℕ) : ℤ) := by
      rw [show ((2 ^ bw : ℕ) : ℤ) = (2 : ℤ) ^ bw by push_cast; ring]
      exact g1
    refine ⟨g0, lt_min ?_ ?_⟩ <;> omega
  · rw [if_neg h]
    obtain ⟨g0, g1⟩ := denseSlot_mem res c h1 h2 h3 h4 h5 h6
    have hlt : denseSlot res c < ((res ^ 3 : ℕ) : ℤ) := by
      rw [show ((res ^ 3 : ℕ) : ℤ) = (res : ℤ) ^ 3 by push_cast; ring]
      exact g1
    have hnl : res ^ 3 ≤ 2 ^ bw := Nat.le_of_not_lt h
    refine ⟨g0, lt_min ?_ ?_⟩ <;> omega

/-- The dense slot of a corner in the signed box `[-(res-1), res-1]^3`
(which is where int16-wrapped corners land) has magnitude below
`res^3`, so the Python negative-index wraparound keeps the gather
inside the segment. -/
lemma denseSlot_abs_mem (res : ℕ) (c : ℤ × ℤ × ℤ)
    (h1 : -((res : ℤ) - 1) ≤ c.1) (h2 : c.1 ≤ (res : ℤ) - 1)
    (h3 : -((res : ℤ) - 1) ≤ c.2.1) (h4 : c.2.1 ≤ (res : ℤ) - 1)
    (h5 : -((res : ℤ) - 1) ≤ c.2.2) (h6 : c.2.2 ≤ (res : ℤ) - 1) :
    -((res : ℤ) ^ 3) < denseSlot res c ∧ denseSlot res c < (res : ℤ) ^ 3 := by
  have hr0 : (0 : ℤ) ≤ (res : ℤ) := by positivity
  have hr1 : (1 : ℤ) ≤ (res : ℤ) := by omega
  have u1 : c.2.1 * (res : ℤ) ≤ ((res : ℤ) - 1) * (res : ℤ) :=
    mul_le_mul_of_nonneg_right h4 hr0
  have l1 : (-((res : ℤ) - 1)) * (res : ℤ) ≤ c.2.1 * (res : ℤ) :=
    mul_le_mul_of_nonneg_right h3 hr0
  have u2 : c.2.2 * (res : ℤ) ≤ ((res : ℤ) - 1) * (res : ℤ) :=
    mul_le_mul_of_nonneg_right h6 hr0
  have l2 : (-((res : ℤ) - 1)) * (res : ℤ) ≤ c.2.2 * (res : ℤ) :=
    mul_le_mul_of_nonneg_right h5 hr0
  have u2' : c.2.2 * (res : ℤ) * (res : ℤ) ≤
      ((res : ℤ) - 1) * (res : ℤ) * (res : ℤ) :=
    mul_le_mul_of_nonneg_right u2 hr0
  have l2' : (-((res : ℤ) - 1)) * (res : ℤ) * (res : ℤ) ≤
      c.2.2 * (res : ℤ) * (res : ℤ) :=
    mul_le_mul_of_nonneg_right l2 hr0
  rw [denseSlot, show ((res : ℤ)) ^ 3 = (res : ℤ) * (res : ℤ) * (res : ℤ) by
    ring]
  constructor <;> nlinarith

/-- In-bounds guarantee with wraparound: a corner in the signed box
has a slot of magnitude below `min(res^3, 2^bitwidth)`, in both the
dense and the hashed regime. -/
lemma gridSlot_wrap_in_segment (res bw : ℕ) (hres : 2 ≤ res)
    (c : ℤ × ℤ × ℤ)
    (h1 : -((res : ℤ) - 1) ≤ c.1) (h2 : c.1 ≤ (res : ℤ) - 1)
    (h3 : -((res : ℤ) - 1) ≤ c.2.1) (h4 : c.2.1 ≤ (res : ℤ) - 1)
    (h5 : -((res : ℤ) - 1) ≤ c.2.2) (h6 : c.2.2 ≤ (res : ℤ) - 1) :
    -((min (res ^ 3) (2 ^ bw) : ℕ) : ℤ) < gridSlot res bw c ∧
      gridSlot res bw c < ((min (res ^ 3) (2 ^ bw) : ℕ) : ℤ) := by
  rw [gridSlot]
  by_cases h : 2 ^ bw < res ^ 3
  · rw [if_pos h]
    obtain ⟨g0, g1⟩ := hashSlot_mem bw c
    have hmin : min (res ^ 3) (2 ^ bw) = 2 ^ bw := min_eq_right (le_of_lt h)
    have hlt : hashSlot bw c < ((2 ^ bw : ℕ) : ℤ) := by
      rw [show ((2 ^ bw : ℕ) : ℤ) = (2 : ℤ) ^ bw by push_cast; ring]
      exact g1
    have hpos : (1 : ℕ) ≤ 2 ^ bw := Nat.one_le_two_pow
    rw [hmin]
    omega
  · rw [if_neg h]
    obtain ⟨g0, g1⟩ := denseSlot_abs_mem res c h1 h2 h3 h4 h5 h6
    have hmin : min (res ^ 3) (2 ^ bw) = res ^ 3 :=
      min_eq_left (Nat.le_of_not_lt h)
    have hcast : ((res ^ 3 : ℕ) : ℤ) = (res : ℤ) ^ 3 := by push_cast; ring
    rw [hmin]
    omega

/-! ### Claim theorems: hash/index function -/

/-- C4: the eight trilinear weights always sum exactly to 1 (over the
exact rationals, hence for every fractional offset in `[0,1)^3`). -/
theorem triCoeffs_partition_of_unity (x : ℚ × ℚ × ℚ) :
    (triCoeffs x).sum = 1 := by
  simp only [triCoeffs, List.sum_cons, List.sum_nil]
  ring

/-- C3: in the hashed regime (`res^3 > 2^bitwidth`) the slot picked by
the index function is the spatial hash, and for every integer vertex
coordinate it lies in `[0, 2^bitwidth)`, hence inside the level's
codebook segment. -/
theorem hashed_regime_slot_bounded (res bw : ℕ) (c : ℤ × ℤ × ℤ)
    (h : 2 ^ bw < res ^ 3) :
    gridSlot res bw c = hashSlot bw c ∧
      0 ≤ hashSlot bw c ∧ hashSlot bw c < (2 : ℤ) ^ bw :=
  ⟨by rw [gridSlot, if_pos h], (hashSlot_mem bw c).1, (hashSlot_mem bw c).2⟩

theorem hashed_regime_slot_bounded_witness :
    2 ^ 2 < 3 ^ 3 ∧
      (gridSlot 3 2 (5, 7, 9) = hashSlot 2 (5, 7, 9) ∧
        0 ≤ hashSlot 2 (5, 7, 9) ∧ hashSlot 2 (5, 7, 9) < (2 : ℤ) ^ 2) :=
  ⟨by decide, hashed_regime_slot_bounded 3 2 (5, 7, 9) (by decide)⟩

/-- C2: in the dense regime (`res^3 ≤ 2^bitwidth`, boundary included)
the slot picked by the index function is the linear index
`cx + cy*res + cz*res*res`, and restricted to vertex coordinates in
`[0, res-1]^3` that map is a bijection onto `[0, res^3)` — in
particular collision free. -/
theorem dense_regime_slot_bijective (res bw : ℕ) (h : res ^ 3 ≤ 2 ^ bw) :
    (∀ c : ℤ × ℤ × ℤ, gridSlot res bw c = denseSlot res c) ∧
      Set.BijOn (denseSlot res)
        {c : ℤ × ℤ × ℤ | (0 ≤ c.1 ∧ c.1 ≤ (res : ℤ) - 1) ∧
          (0 ≤ c.2.1 ∧ c.2.1 ≤ (res : ℤ) - 1) ∧
          (0 ≤ c.2.2 ∧ c.2.2 ≤ (res : ℤ) - 1)}
        (Set.Ico 0 ((res : ℤ) ^ 3)) := by
  constructor
  · intro c; rw [gridSlot, if_neg (not_lt.mpr h)]
  rcases Nat.eq_zero_or_pos res with h0 | hpos
  · subst h0
    have hbox : {c : ℤ × ℤ × ℤ | (0 ≤ c.1 ∧ c.1 ≤ ((0 : ℕ) : ℤ) - 1) ∧
        (0 ≤ c.2.1 ∧ c.2.1 ≤ ((0 : ℕ) : ℤ) - 1) ∧
        (0 ≤ c.2.2 ∧ c.2.2 ≤ ((0 : ℕ) : ℤ) - 1)} = ∅ := by
      ext c; simp only [Set.mem_setOf_eq, Set.mem_empty_iff_false, iff_false]
      push_cast; omega
    have hico : Set.Ico (0 : ℤ) (((0 : ℕ) : ℤ) ^ 3) = ∅ := by
      push_cast; simp
    rw [hbox, hico]
    exact ⟨fun c hc => hc.elim, fun c hc => hc.elim, fun s hs => hs.elim⟩
  have hrz : (0 : ℤ) < (res : ℤ) := by exact_mod_cast hpos
  have hrr : (0 : ℤ) < (res : ℤ) * (res : ℤ) := mul_pos hrz hrz
  have decode : ∀ c : ℤ × ℤ × ℤ,
      (0 ≤ c.1 ∧ c.1 ≤ (res : ℤ) - 1) → (0 ≤ c.2.1 ∧ c.2.1 ≤ (res : ℤ) - 1) →
      (0 ≤ c.2.2 ∧ c.2.2 ≤ (res : ℤ) - 1) →
      denseSlot res c % (res : ℤ) = c.1 ∧
        denseSlot res c / (res : ℤ) % (res : ℤ) = c.2.1 ∧
        denseSlot res c / ((res : ℤ) * (res : ℤ)) = c.2.2 := by
    rintro c ⟨h1, h2⟩ ⟨h3, h4⟩ ⟨h5, h6⟩
    have e1 : denseSlot res c = c.1 + (c.2.1 + c.2.2 * (res : ℤ)) * (res : ℤ) := by
      rw [denseSlot]; ring
    have e2 : denseSlot res c = (c.1 + c.2.1 * (res : ℤ)) +
        c.2.2 * ((res : ℤ) * (res : ℤ)) := by
      rw [denseSlot]; ring
    refine ⟨?_, ?_, ?_⟩
    · rw [e1, Int.add_mul_emod_self, Int.emod_eq_of_lt h1 (by omega)]
    · rw [e1, Int.add_mul_ediv_right _ _ (ne_of_gt hrz),
        Int.ediv_eq_zero_of_lt h1 (by omega), zero_add,
        Int.add_mul_emod_self, Int.emod_eq_of_lt h3 (by omega)]
    · rw [e2, Int.add_mul_ediv_right _ _ (ne_of_gt hrr),
        Int.ediv_eq_zero_of_lt (by nlinarith) (by nlinarith), zero_add]
  refine ⟨?_, ?_, ?_⟩
  · rintro c ⟨⟨h1, h2⟩, ⟨h3, h4⟩, h5, h6⟩
    obtain ⟨g0, g1⟩ := denseSlot_mem res c h1 h2 h3 h4 h5 h6
    exact ⟨g0, g1⟩
  · rintro c ⟨hc1, hc2, hc3⟩ c' ⟨hc1', hc2', hc3'⟩ heq
    obtain ⟨d1, d2, d3⟩ := decode c hc1 hc2 hc3
    obtain ⟨d1', d2', d3'⟩ := decode c' hc1' hc2' hc3'
    have e1 : c.1 = c'.1 := by rw [← d1, ← d1', heq]
    have e2 : c.2.1 = c'.2.1 := by rw [← d2, ← d2', heq]
    have e3 : c.2.2 = c'.2.2 := by rw [← d3, ← d3', heq]
    exact Prod.ext e1 (Prod.ext e2 e3)
  · rintro s ⟨hs0, hs1⟩
    have hrc : ((res : ℤ)) ^ 3 = (res : ℤ) * ((res : ℤ) * (res : ℤ)) := by ring
    have hb1 : 0 ≤ s % (res : ℤ) := Int.emod_nonneg s (ne_of_gt hrz)
    have hb2 : s % (res : ℤ) < (res : ℤ) := Int.emod_lt_of_pos s hrz
    have hdiv0 : 0 ≤ s / (res : ℤ) := Int.ediv_nonneg hs0 (le_of_lt hrz)
    have hb3 : 0 ≤ s / (res : ℤ) % (res : ℤ) := Int.emod_nonneg _ (ne_of_gt hrz)
    have hb4 : s / (res : ℤ) % (res : ℤ) < (res : ℤ) := Int.emod_lt_of_pos _ hrz
    have hb5 : 0 ≤ s / ((res : ℤ) * (res : ℤ)) := Int.ediv_nonneg hs0 (le_of_lt hrr)
    have hb6 : s / ((res : ℤ) * (res : ℤ)) < (res : ℤ) := by
      rw [Int.ediv_lt_iff_lt_mul hrr]
      calc s < (res : ℤ) ^ 3 := hs1
        _ = (res : ℤ) * ((res : ℤ) * (res : ℤ)) := by ring
    have hbb2 : s % (res : ℤ) ≤ (res : ℤ) - 1 := by omega
    have hbb4 : s / (res : ℤ) % (res : ℤ) ≤ (res : ℤ) - 1 := by omega
    have hbb6 : s / ((res : ℤ) * (res : ℤ)) ≤ (res : ℤ) - 1 := by omega
    refine ⟨(s % (res : ℤ), s / (res : ℤ) % (res : ℤ),
        s / ((res : ℤ) * (res : ℤ))), ⟨⟨hb1, hbb2⟩, ⟨hb3, hbb4⟩,
        ⟨hb5, hbb6⟩⟩, ?_⟩
    show denseSlot res _ = s
    set A := s % ((res : ℤ) * (res : ℤ)) with hA
    set q := s / ((res : ℤ) * (res : ℤ)) with hq
    have hs : A + ((res : ℤ) * (res : ℤ)) * q = s := Int.emod_add_ediv s _
    have hA0 : 0 ≤ A := Int.emod_nonneg s (ne_of_gt hrr)
    have hA1 : A < (res : ℤ) * (res : ℤ) := Int.emod_lt_of_pos s hrr
    have hsA : s = A + (q * (res : ℤ)) * (res : ℤ) := by rw [← hs]; ring
    have hsr : s % (res : ℤ) = A % (res : ℤ) := by
      rw [hsA, Int.add_mul_emod_self]
    have hsd : s / (res : ℤ) = A / (res : ℤ) + q * (res : ℤ) := by
      rw [hsA, Int.add_mul_ediv_right _ _ (ne_of_gt hrz)]
    have hAd0 : 0 ≤ A / (res : ℤ) := Int.ediv_nonneg hA0 (le_of_lt hrz)
    have hAd1 : A / (res : ℤ) < (res : ℤ) := by
      rw [Int.ediv_lt_iff_lt_mul hrz]; exact hA1
    have hsdm : s / (res : ℤ) % (res : ℤ) = A / (res : ℤ) := by
      rw [hsd, Int.add_mul_emod_self, Int.emod_eq_of_lt hAd0 hAd1]
    rw [denseSlot]
    dsimp only
    rw [hsr, hsdm]
    have hAde : A % (res : ℤ) + A / (res : ℤ) * (res : ℤ) = A :=
      Int.emod_add_ediv' A _
    calc A % (res : ℤ) + A / (res : ℤ) * (res : ℤ) +
          q * (res : ℤ) * (res : ℤ)
        = A + q * (res : ℤ) * (res : ℤ) := by rw [hAde]
      _ = s := by rw [← hs]; ring

theorem dense_regime_slot_bijective_witness :
    2 ^ 3 ≤ 2 ^ 4 ∧
      ((∀ c : ℤ × ℤ × ℤ, gridSlot 2 4 c = denseSlot 2 c) ∧
        Set.BijOn (denseSlot 2)
          {c : ℤ × ℤ × ℤ | (0 ≤ c.1 ∧ c.1 ≤ ((2 : ℕ) : ℤ) - 1) ∧
            (0 ≤ c.2.1 ∧ c.2.1 ≤ ((2 : ℕ) : ℤ) - 1) ∧
            (0 ≤ c.2.2 ∧ c.2.2 ≤ ((2 : ℕ) : ℤ) - 1)}
          (Set.Ico 0 (((2 : ℕ) : ℤ) ^ 3))) :=
  ⟨by decide, dense_regime_slot_bijective 2 4 (by decide)⟩

/-! ### Support lemmas: feature-row algebra -/

lemma vsum_cons_cons (v b : List ℚ) (t : List (List ℚ)) :
    vsum (v :: b :: t) = vecAdd v (vsum (b :: t)) := rfl

lemma smul_one_row (v : List ℚ) : smul 1 v = v := by simp [smul]

lemma smul_zero_row (v : List ℚ) : smul 0 v = List.replicate v.length 0 := by
  induction v with
  | nil => rfl
  | cons a t ih =>
    show (0 * a) :: smul 0 t = List.replicate (t.length + 1) 0
    rw [ih, zero_mul, List.replicate_succ]

lemma smul_length (w : ℚ) (v : List ℚ) : (smul w v).length = v.length := by
  simp [smul]

lemma vecAdd_replicate_zero_left (v : List ℚ) :
    vecAdd (List.replicate v.length 0) v = v := by
  induction v with
  | nil => rfl
  | cons a t ih =>
    show (0 + a) :: vecAdd (List.replicate t.length 0) t = a :: t
    rw [ih, zero_add]

lemma vecAdd_replicate_zero_right (v : List ℚ) :
    vecAdd v (List.replicate v.length 0) = v := by
  induction v with
  | nil => rfl
  | cons a t ih =>
    show (a + 0) :: vecAdd t (List.replicate t.length 0) = a :: t
    rw [ih, add_zero]

lemma vsum_replicates (F : ℕ) :
    ∀ l : List (List ℚ), l ≠ [] → (∀ v ∈ l, v = List.replicate F 0) →
      vsum l = List.replicate F 0 := by
  intro l
  induction l with
  | nil => intro h; exact absurd rfl h
  | cons v rest ih =>
    intro _ hall
    cases rest with
    | nil => exact hall v (List.mem_singleton.mpr rfl)
    | cons b t =>
      rw [vsum_cons_cons, ih (List.cons_ne_nil b t)
        (fun w hw => hall w (List.mem_cons_of_mem v hw)),
        hall v (List.mem_cons_self _ _)]
      have := vecAdd_replicate_zero_left (List.replicate F (0 : ℚ))
      rwa [List.length_replicate] at this

lemma vsum_length (n : ℕ) :
    ∀ l : List (List ℚ), l ≠ [] → (∀ v ∈ l, v.length = n) →
      (vsum l).length = n := by
  intro l
  induction l with
  | nil => intro h; exact absurd rfl h
  | cons v rest ih =>
    intro _ hall
    cases rest with
    | nil => exact hall v (List.mem_singleton.mpr rfl)
    | cons b t =>
      rw [vsum_cons_cons, vecAdd, List.length_zipWith,
        ih (List.cons_ne_nil b t) (fun w hw => hall w (List.mem_cons_of_mem v hw)),
        hall v (List.mem_cons_self _ _), min_self]

lemma vsum_one_hot (F : ℕ) (f : List ℚ) (hf : f.length = F) :
    ∀ pre post : List (List ℚ),
      (∀ v ∈ pre, v = List.replicate F 0) →
      (∀ v ∈ post, v = List.replicate F 0) →
      vsum (pre ++ f :: post) = f := by
  intro pre
  induction pre with
  | nil =>
    intro post _ hpost
    cases post with
    | nil => rfl
    | cons p ps =>
      rw [List.nil_append, vsum_cons_cons,
        vsum_replicates F (p :: ps) (List.cons_ne_nil p ps) hpost, ← hf,
        vecAdd_replicate_zero_right]
  | cons q qs ih =>
    intro post hpre hpost
    have hq : q = List.replicate F 0 := hpre q (List.mem_cons_self _ _)
    have htail : qs ++ f :: post ≠ [] := by simp
    obtain ⟨b, t, hbt⟩ : ∃ b t, qs ++ f :: post = b :: t := by
      cases hqs : qs ++ f :: post with
      | nil => exact absurd hqs htail
      | cons b t => exact ⟨b, t, rfl⟩
    rw [List.cons_append, hbt, vsum_cons_cons, ← hbt,
      ih post (fun w hw => hpre w (List.mem_cons_of_mem q hw)) hpost, hq, ← hf,
      vecAdd_replicate_zero_left]

/-! ### Support lemmas: gathers stay inside the codebook -/

lemma fetch_mem (codebook : List (List ℚ)) (first size : ℕ) (idx : ℤ)
    (h0 : 0 ≤ idx) (h1 : idx.toNat < size)
    (hseg : first + size ≤ codebook.length) :
    fetch codebook first size idx ∈ codebook := by
  rw [fetch, pyGet, if_pos h0]
  have hlen : ((codebook.drop first).take size).length = size := by
    rw [List.length_take, List.length_drop]
    omega
  have hidx : idx.toNat < ((codebook.drop first).take size).length := by omega
  rw [List.getD_eq_getElem _ _ hidx]
  exact List.drop_subset first codebook
    (List.take_subset size _ (List.getElem_mem hidx))

lemma fetch_length (codebook : List (List ℚ)) (F first size : ℕ) (idx : ℤ)
    (hF : FeatsOK codebook F) (h0 : 0 ≤ idx) (h1 : idx.toNat < size)
    (hseg : first + size ≤ codebook.length) :
    (fetch codebook first size idx).length = F :=
  hF _ (fetch_mem codebook first size idx h0 h1 hseg)

/-- A gather whose index has magnitude below the segment size returns
a genuine codebook row: a non-negative index reads directly, a
negative one wraps around once, exactly as Python indexing does. -/
lemma fetch_mem_wrap (codebook : List (List ℚ)) (first size : ℕ) (idx : ℤ)
    (hlow : -(size : ℤ) < idx) (hhigh : idx < (size : ℤ))
    (hseg : first + size ≤ codebook.length) :
    fetch codebook first size idx ∈ codebook := by
  rw [fetch, pyGet]
  have hlen : ((codebook.drop first).take size).length = size := by
    rw [List.length_take, List.length_drop]
    omega
  by_cases h0 : 0 ≤ idx
  · rw [if_pos h0]
    have hidx : idx.toNat < ((codebook.drop first).take size).length := by
      omega
    rw [List.getD_eq_getElem _ _ hidx]
    exact List.drop_subset first codebook
      (List.take_subset size _ (List.getElem_mem hidx))
  · rw [if_neg h0,
      if_pos (by omega : (-idx).toNat ≤ ((codebook.drop first).take size).length)]
    have hidx : ((codebook.drop first).take size).length - (-idx).toNat <
        ((codebook.drop first).take size).length := by omega
    rw [List.getD_eq_getElem _ _ hidx]
    exact List.drop_subset first codebook
      (List.take_subset size _ (List.getElem_mem hidx))

lemma vsum_one_hot_at (F : ℕ) (f : List ℚ) (hf : f.length = F) (m n : ℕ) :
    vsum (List.replicate m (List.replicate F 0) ++
      f :: List.replicate n (List.replicate F 0)) = f :=
  vsum_one_hot F f hf _ _ (fun v hv => List.eq_of_mem_replicate hv)
    (fun v hv => List.eq_of_mem_replicate hv)

/-- C5: the corner enumeration order and the trilinear weight order
correspond index for index: whenever the fractional offset is exactly a
unit-cube vertex `(a, b, c) ∈ {0,1}^3`, the per-level gather+reduce
returns exactly the feature row stored at that vertex's corner slot
(weight 1 on that corner, 0 on the other seven). -/
theorem corner_weight_alignment (codebook : List (List ℚ))
    (F first size res bw : ℕ) (c000 : ℤ × ℤ × ℤ) (a b c : Bool)
    (hF : FeatsOK codebook F)
    (hseg : first + size ≤ codebook.length)
    (hin : ∀ crn ∈ points_to_corners c000,
      0 ≤ gridSlot res bw crn ∧ (gridSlot res bw crn).toNat < size) :
    interpCell codebook first size res bw c000 (vtxQ a, vtxQ b, vtxQ c) =
      fetch codebook first size
        (gridSlot res bw
          (c000.1 + vtxZ a, c000.2.1 + vtxZ b, c000.2.2 + vtxZ c)) := by
  have hlen : ∀ crn ∈ points_to_corners c000,
      (fetch codebook first size (gridSlot res bw crn)).length = F :=
    fun crn h =>
      fetch_length codebook F first size _ hF (hin crn h).1 (hin crn h).2 hseg
  cases a <;> cases b <;> cases c
  · norm_num [interpCell, points_to_corners, cornerOffsets, triCoeffs, vtxQ,
      vtxZ, List.zipWith_cons_cons, smul_one_row, smul_zero_row, hlen]
    exact vsum_one_hot_at F _
      (hlen _ (by norm_num [points_to_corners, cornerOffsets])) 0 7
  · norm_num [interpCell, points_to_corners, cornerOffsets, triCoeffs, vtxQ,
      vtxZ, List.zipWith_cons_cons, smul_one_row, smul_zero_row, hlen]
    exact vsum_one_hot_at F _
      (hlen _ (by norm_num [points_to_corners, cornerOffsets])) 1 6
  · norm_num [interpCell, points_to_corners, cornerOffsets, triCoeffs, vtxQ,
      vtxZ, List.zipWith_cons_cons, smul_one_row, smul_zero_row, hlen]
    exact vsum_one_hot_at F _
      (hlen _ (by norm_num [points_to_corners, cornerOffsets])) 2 5
  · norm_num [interpCell, points_to_corners, cornerOffsets, triCoeffs, vtxQ,
      vtxZ, List.zipWith_cons_cons, smul_one_row, smul_zero_row, hlen]
    exact vsum_one_hot_at F _
      (hlen _ (by norm_num [points_to_corners, cornerOffsets])) 3 4
  · norm_num [interpCell, points_to_corners, cornerOffsets, triCoeffs, vtxQ,
      vtxZ, List.zipWith_cons_cons, smul_one_row, smul_zero_row, hlen]
    exact vsum_one_hot_at F _
      (hlen _ (by norm_num [points_to_corners, cornerOffsets])) 4 3
  · norm_num [interpCell, points_to_corners, cornerOffsets, triCoeffs, vtxQ,
      vtxZ, List.zipWith_cons_cons, smul_one_row, smul_zero_row, hlen]
    exact vsum_one_hot_at F _
      (hlen _ (by norm_num [points_to_corners, cornerOffsets])) 5 2
  · norm_num [interpCell, points_to_corners, cornerOffsets, triCoeffs, vtxQ,
      vtxZ, List.zipWith_cons_cons, smul_one_row, smul_zero_row, hlen]
    exact vsum_one_hot_at F _
      (hlen _ (by norm_num [points_to_corners, cornerOffsets])) 6 1
  · norm_num [interpCell, points_to_corners, cornerOffsets, triCoeffs, vtxQ,
      vtxZ, List.zipWith_cons_cons, smul_one_row, smul_zero_row, hlen]
    exact vsum_one_hot_at F _
      (hlen _ (by norm_num [points_to_corners, cornerOffsets])) 7 0

theorem corner_weight_alignment_witness :
    interpCell [[0, 0], [1, 1], [2, 2], [3, 3], [4, 4], [5, 5], [6, 6], [7, 7]]
        0 8 2 4 (0, 0, 0) (vtxQ true, vtxQ false, vtxQ true) =
      fetch [[0, 0], [1, 1], [2, 2], [3, 3], [4, 4], [5, 5], [6, 6], [7, 7]]
        0 8 (gridSlot 2 4 ((0 : ℤ) + vtxZ true, (0 : ℤ) + vtxZ false,
          (0 : ℤ) + vtxZ true)) :=
  corner_weight_alignment
    [[0, 0], [1, 1], [2, 2], [3, 3], [4, 4], [5, 5], [6, 6], [7, 7]]
    2 0 8 2 4 (0, 0, 0) true false true (by decide) (by decide) (by decide)

/-! ### Clipping of out-of-range coordinates -/

lemma tfCoord_clamp (res : ℕ) (x : ℚ) :
    tfCoord res (clampCoord x) = tfCoord res x := by
  have hr0 : (0 : ℚ) ≤ (res : ℚ) := by positivity
  rw [tfCoord, tfCoord, clampCoord]
  rcases le_total x (-1) with hx | hx
  · rw [max_eq_right hx, min_eq_left (by norm_num : (-1 : ℚ) ≤ 1)]
    have h1 : ((-1 : ℚ) + 1) / 2 * (res : ℚ) = 0 := by ring
    have h2 : ((x + 1) / 2) * (res : ℚ) ≤ 0 := by
      apply mul_nonpos_of_nonpos_of_nonneg _ hr0
      linarith
    rw [h1, max_eq_right h2, max_self]
  · have hmax : max x (-1) = x := max_eq_left (by linarith)
    rcases le_total x 1 with hx1 | hx1
    · rw [hmax, min_eq_left hx1]
    · have hmin : min x 1 = 1 := min_eq_right hx1
      have h1 : ((1 : ℚ) + 1) / 2 * (res : ℚ) = (res : ℚ) := by ring
      have h2 : (res : ℚ) ≤ ((x + 1) / 2) * (res : ℚ) := by
        rcases eq_or_lt_of_le hr0 with h0 | h0
        · rw [← h0]; simp
        · have : (1 : ℚ) ≤ (x + 1) / 2 := by linarith
          nlinarith
      have h3 : max (((x + 1) / 2) * (res : ℚ)) 0 = ((x + 1) / 2) * (res : ℚ) :=
        max_eq_left (by linarith)
      rw [hmax, hmin, h1, max_eq_left hr0, h3,
        min_eq_right (by rw [EPS]; linarith),
        min_eq_right (by rw [EPS]; linarith)]

lemma levelFeat_clamp (codebook : List (List ℚ)) (first size res bw : ℕ)
    (p : ℚ × ℚ × ℚ) :
    levelFeat codebook first size res bw (clampPoint p) =
      levelFeat codebook first size res bw p := by
  simp only [levelFeat, baseCorner, fracOffset, clampPoint, tfCoord_clamp]

lemma hashgrid_cuda_clamp (coords : List (ℚ × ℚ × ℚ)) (codebook : List (List ℚ))
    (first_idx resolutions : List ℕ) (bw : ℕ) :
    hashgrid_interpolate_cuda (coords.map clampPoint) codebook first_idx
        resolutions bw =
      hashgrid_interpolate_cuda coords codebook first_idx resolutions bw := by
  rw [hashgrid_interpolate_cuda, hashgrid_interpolate_cuda, List.map_map]
  apply List.map_congr_left
  intro p _
  show (resolutions.enum.map (fun ir =>
      levelFeat codebook (first_idx.getD ir.1 0) (min (ir.2 ^ 3) (2 ^ bw)) ir.2 bw
        (clampPoint p))).flatten = _
  exact congrArg List.flatten
    (List.map_congr_left (fun ir _ => levelFeat_clamp codebook _ _ ir.2 bw p))

/-- C6: coordinates outside `[-1, 1]` are not rejected: the encoder is
total and its output on any batch equals its output on the batch with
every coordinate clipped to `[-1, 1]`, for the reference path and the
accelerated path alike. -/
theorem out_of_range_coords_are_clipped (coords : List (ℚ × ℚ × ℚ))
    (resolutions : List ℕ) (bw lod_idx : ℕ) (codebook : List (List ℚ))
    (sizes first_idx : List ℕ) :
    hashgrid_naive (coords.map clampPoint) resolutions bw lod_idx codebook
        sizes first_idx =
      hashgrid_naive coords resolutions bw lod_idx codebook sizes first_idx ∧
    hashgrid (coords.map clampPoint) resolutions bw lod_idx codebook
        sizes first_idx =
      hashgrid coords resolutions bw lod_idx codebook sizes first_idx := by
  constructor
  · rw [hashgrid_naive, hashgrid_naive]
    apply congrArg catFeats
    apply List.map_congr_left
    intro ir _
    rw [List.map_map]
    apply List.map_congr_left
    intro p _
    exact levelFeat_clamp codebook _ _ ir.2 bw p
  · rw [hashgrid, hashgrid, HashGridInterpolate.forward,
      HashGridInterpolate.forward]
    by_cases hguard : (codebook.headD []).length % 2 = 1
    · rw [if_pos hguard, if_pos hguard]
    · rw [if_neg hguard, if_neg hguard]
      rw [hashgrid_cuda_clamp, List.length_map]

/-- C7: the accelerated forward raises the configuration error exactly
on an odd feature width, before any computation: on the error path the
result does not depend on the kernel at all (no kernel call, no saved
state, no partial output), and on an even feature width no error is
raised. -/
theorem forward_rejects_odd_feature_dim
    (k k' : List (ℚ × ℚ × ℚ) → List (List ℚ) → List ℕ → List ℕ → ℕ →
      List (List ℚ))
    (coords : List (ℚ × ℚ × ℚ)) (resolutions : List ℕ)
    (bw lod_idx : ℕ) (codebook : List (List ℚ)) (sizes first_idx : List ℕ) :
    ((codebook.headD []).length % 2 = 1 →
      HashGridInterpolate.forward k coords resolutions bw lod_idx codebook
          sizes first_idx = Except.error (oddFeatureMsg) ∧
      HashGridInterpolate.forward k coords resolutions bw lod_idx codebook
          sizes first_idx =
        HashGridInterpolate.forward k' coords resolutions bw lod_idx codebook
          sizes first_idx) ∧
    ((codebook.headD []).length % 2 = 0 →
      (HashGridInterpolate.forward k coords resolutions bw lod_idx codebook
          sizes first_idx).isOk = true) := by
  constructor
  · intro hodd
    rw [HashGridInterpolate.forward, HashGridInterpolate.forward,
      if_pos hodd, if_pos hodd]
    exact ⟨rfl, rfl⟩
  · intro heven
    rw [HashGridInterpolate.forward, if_neg (by omega)]
    rfl

theorem forward_rejects_odd_feature_dim_witness :
    (([[1, 2, 3]] : List (List ℚ)).headD []).length % 2 = 1 ∧
      (HashGridInterpolate.forward hashgrid_interpolate_cuda [] [2] 4 0
          [[1, 2, 3]] [8] [0] = Except.error (oddFeatureMsg) ∧
        HashGridInterpolate.forward hashgrid_interpolate_cuda [] [2] 4 0
            [[1, 2, 3]] [8] [0] =
          HashGridInterpolate.forward (fun _ _ _ _ _ => []) [] [2] 4 0
            [[1, 2, 3]] [8] [0]) ∧
    (([[1, 2]] : List (List ℚ)).headD []).length % 2 = 0 ∧
      (HashGridInterpolate.forward hashgrid_interpolate_cuda [] [2] 4 0
          [[1, 2]] [8] [0]).isOk = true :=
  ⟨by decide,
    (forward_rejects_odd_feature_dim hashgrid_interpolate_cuda
      (fun _ _ _ _ _ => []) [] [2] 4 0 [[1, 2, 3]] [8] [0]).1 (by decide),
    by decide,
    (forward_rejects_odd_feature_dim hashgrid_interpolate_cuda
      (fun _ _ _ _ _ => []) [] [2] 4 0 [[1, 2]] [8] [0]).2 (by decide)⟩

lemma int_toNat_numeral (n : ℕ) :
    Int.toNat (no_index (OfNat.ofNat n)) = OfNat.ofNat n := rfl

lemma backward_skip_on_false_head (ctx : SavedCtx)
    (grad_output : List (List ℚ)) (tail_flags : List Bool) :
    HashGridInterpolate.backward ctx grad_output (false :: tail_flags) =
      zeroGradBuffer ctx.codebook := by
  rw [HashGridInterpolate.backward, hashgrid_interpolate_backward_cuda]
  show (if (false : Bool) then _ else _) = _
  rw [if_neg (by simp)]

set_option maxHeartbeats 1600000 in
lemma backward_cuda_accumulates_example :
    hashgrid_interpolate_backward_cuda [((-1 : ℚ), -1, -1)] [[1, 1]]
        (List.replicate 8 [0, 0]) [0] [2] 4 2 true =
      [[1, 1], [0, 0], [0, 0], [0, 0], [0, 0], [0, 0], [0, 0], [0, 0]] := by
  have h1 : tfCoord 2 (-1 : ℚ) = 0 := by
    rw [tfCoord, EPS]
    norm_num
  have h2 : baseCorner 2 ((-1 : ℚ), -1, -1) = (0, 0, 0) := by
    rw [baseCorner]
    norm_num [h1, toInt16]
  have h3 : fracOffset 2 ((-1 : ℚ), -1, -1) = (0, 0, 0) := by
    rw [fracOffset]
    norm_num [h1, toInt16]
  have h4 : triCoeffs (0 : ℚ × ℚ × ℚ) = [1, 0, 0, 0, 0, 0, 0, 0] := by
    rw [show (0 : ℚ × ℚ × ℚ) = ((0 : ℚ), (0 : ℚ), (0 : ℚ)) from rfl, triCoeffs]
    norm_num
  rw [hashgrid_interpolate_backward_cuda, if_pos rfl]
  show scatterSample [2] [0] 4 2 ((-1 : ℚ), -1, -1) [1, 1]
      (zeroGradBuffer (List.replicate 8 [0, 0])) = _
  rw [scatterSample]
  norm_num [h2, h3, h4, zeroGradBuffer, addRowAt, smul, vecAdd,
    points_to_corners, cornerOffsets, gridSlot, denseSlot, List.replicate,
    List.enum, List.enumFrom, int_toNat_numeral]

/-- C9 (the divergence): the source drives the backward skip with
`ctx.needs_input_grad[0]`, the needs-gradient flag of forward input 0,
which is `coords` — not input 4, the codebook.  Whenever the
coordinates do not require gradients the scatter-add is skipped and an
all-zero buffer is returned, regardless of the codebook's own
needs-gradient flag — in particular at a concrete input whose flags say
"coords: no gradient, codebook: gradient needed" the returned buffer is
all zero, although the non-skipped scatter-add accumulates `[1, 1]`
into slot 0. -/
theorem backward_skip_driven_by_coords_flag :
    (∀ (ctx : SavedCtx) (grad_output : List (List ℚ))
        (tail_flags : List Bool),
      HashGridInterpolate.backward ctx grad_output (false :: tail_flags) =
        zeroGradBuffer ctx.codebook) ∧
    HashGridInterpolate.backward
        (SavedCtx.mk [((-1 : ℚ), -1, -1)] (List.replicate 8 [0, 0]) [0] [2]
          1 16 4 2)
        [[1, 1]] [false, false, false, false, true, false, false] =
      zeroGradBuffer (List.replicate 8 [0, 0]) ∧
    hashgrid_interpolate_backward_cuda [((-1 : ℚ), -1, -1)] [[1, 1]]
        (List.replicate 8 [0, 0]) [0] [2] 4 2 true =
      [[1, 1], [0, 0], [0, 0], [0, 0], [0, 0], [0, 0], [0, 0], [0, 0]] :=
  ⟨backward_skip_on_false_head,
    backward_skip_on_false_head _ _ _,
    backward_cuda_accumulates_example⟩

/-- C10: for `res ≥ 2` the floored base corner lies in `[0, res-2]`,
hence every cell corner lies in `[0, res-1]` and the dense-regime slot
of every corner lies in `[0, res^3)`; at `res = 1` the clip's upper
bound is negative and the base corner is `-1` in each component. -/
lemma baseCorner_res_one (x : ℚ) : toInt16 ⌊tfCoord 1 x⌋ = -1 := by
  rw [tfCoord_res_one]
  decide

/-- C10 (amended): for `2 ≤ res ≤ 32769` (so the int16 cast of the
floored corner cannot wrap) the base corner lies in `[0, res-2]`, hence
every cell corner lies in `[0, res-1]` and the dense-regime slot of
every corner lies in `[0, res^3)`; at `res = 1` the clip's upper bound
is negative and the base corner is `-1` in each component.  For larger
resolutions the `.short()` cast can wrap the base corner negative (see
the counterexample). -/
theorem base_corner_in_bounds (res bw : ℕ) (p : ℚ × ℚ × ℚ) :
    (2 ≤ res → res ≤ 32769 →
      (0 ≤ (baseCorner res p).1 ∧ (baseCorner res p).1 ≤ (res : ℤ) - 2) ∧
      (0 ≤ (baseCorner res p).2.1 ∧ (baseCorner res p).2.1 ≤ (res : ℤ) - 2) ∧
      (0 ≤ (baseCorner res p).2.2 ∧ (baseCorner res p).2.2 ≤ (res : ℤ) - 2) ∧
      (∀ crn ∈ points_to_corners (baseCorner res p),
        (0 ≤ crn.1 ∧ crn.1 ≤ (res : ℤ) - 1) ∧
        (0 ≤ crn.2.1 ∧ crn.2.1 ≤ (res : ℤ) - 1) ∧
        (0 ≤ crn.2.2 ∧ crn.2.2 ≤ (res : ℤ) - 1)) ∧
      (res ^ 3 ≤ 2 ^ bw →
        ∀ crn ∈ points_to_corners (baseCorner res p),
          0 ≤ gridSlot res bw crn ∧ gridSlot res bw crn < (res : ℤ) ^ 3)) ∧
    (baseCorner 1 p).1 = -1 ∧ (baseCorner 1 p).2.1 = -1 ∧
      (baseCorner 1 p).2.2 = -1 := by
  constructor
  · intro hres h32
    have heq := baseCorner_eq_floor res hres h32 p
    refine ⟨?_, ?_, ?_, corner_coords_mem res hres h32 p, ?_⟩
    · rw [heq]
      exact floor_tfCoord_mem res hres p.1
    · rw [heq]
      exact floor_tfCoord_mem res hres p.2.1
    · rw [heq]
      exact floor_tfCoord_mem res hres p.2.2
    intro hdense crn hcrn
    obtain ⟨⟨h1, h2⟩, ⟨h3, h4⟩, h5, h6⟩ :=
      corner_coords_mem res hres h32 p crn hcrn
    have := denseSlot_mem res crn h1 h2 h3 h4 h5 h6
    rw [gridSlot, if_neg (not_lt.mpr hdense)]
    exact this
  · exact ⟨baseCorner_res_one p.1, baseCorner_res_one p.2.1,
      baseCorner_res_one p.2.2⟩

theorem base_corner_in_bounds_witness :
    2 ≤ 2 ∧ 2 ≤ 32769 ∧
      ((0 ≤ (baseCorner 2 (0, 0, 0)).1 ∧
          (baseCorner 2 (0, 0, 0)).1 ≤ ((2 : ℕ) : ℤ) - 2) ∧
        (0 ≤ (baseCorner 2 (0, 0, 0)).2.1 ∧
          (baseCorner 2 (0, 0, 0)).2.1 ≤ ((2 : ℕ) : ℤ) - 2) ∧
        (0 ≤ (baseCorner 2 (0, 0, 0)).2.2 ∧
          (baseCorner 2 (0, 0, 0)).2.2 ≤ ((2 : ℕ) : ℤ) - 2) ∧
        (∀ crn ∈ points_to_corners (baseCorner 2 (0, 0, 0)),
          (0 ≤ crn.1 ∧ crn.1 ≤ ((2 : ℕ) : ℤ) - 1) ∧
          (0 ≤ crn.2.1 ∧ crn.2.1 ≤ ((2 : ℕ) : ℤ) - 1) ∧
          (0 ≤ crn.2.2 ∧ crn.2.2 ≤ ((2 : ℕ) : ℤ) - 1)) ∧
        (2 ^ 3 ≤ 2 ^ 4 →
          ∀ crn ∈ points_to_corners (baseCorner 2 (0, 0, 0)),
            0 ≤ gridSlot 2 4 crn ∧ gridSlot 2 4 crn < ((2 : ℕ) : ℤ) ^ 3)) :=
  ⟨by decide, by decide,
    ((base_corner_in_bounds 2 4 (0, 0, 0)).1 (by decide) (by decide))⟩

/-- C10 (counterexample to the claim as stated): at `res = 40000` and
input coordinate `0.9` the clipped, floored value is `38000`; its
`.short()` int16 cast wraps to `-27536`, so the program's base corner
is negative rather than in `[0, res-2]`. -/
theorem base_corner_int16_wrap_counterexample :
    2 ≤ 40000 ∧
    (baseCorner 40000 ((9 : ℚ) / 10, 9 / 10, 9 / 10)).1 = -27536 ∧
    ¬ (0 ≤ (baseCorner 40000 ((9 : ℚ) / 10, 9 / 10, 9 / 10)).1) := by
  have h1 : tfCoord 40000 ((9 : ℚ) / 10) = 38000 := by
    rw [tfCoord, EPS]
    norm_num
  have h2 : (baseCorner 40000 ((9 : ℚ) / 10, 9 / 10, 9 / 10)).1 = -27536 := by
    show toInt16 ⌊tfCoord 40000 ((9 : ℚ) / 10)⌋ = -27536
    rw [h1, toInt16]
    norm_num
  refine ⟨by norm_num, h2, ?_⟩
  rw [h2]
  norm_num

/-! ### Support lemmas: batch shapes and level concatenation -/

lemma exists_of_mem_zipWith {α β γ : Type} {f : α → β → γ} :
    ∀ {as : List α} {bs : List β} {c : γ}, c ∈ List.zipWith f as bs →
      ∃ a ∈ as, ∃ b ∈ bs, c = f a b := by
  intro as
  induction as with
  | nil => intro bs c h; simp at h
  | cons a t ih =>
    intro bs c h
    cases bs with
    | nil => simp at h
    | cons b u =>
      rw [List.zipWith_cons_cons] at h
      rcases List.mem_cons.mp h with h1 | h1
      · exact ⟨a, List.mem_cons_self _ _, b, List.mem_cons_self _ _, h1⟩
      · obtain ⟨a', ha, b', hb, hc⟩ := ih h1
        exact ⟨a', List.mem_cons_of_mem _ ha, b', List.mem_cons_of_mem _ hb, hc⟩

lemma zipWith_append_map {β : Type} (cs : List β) (f g : β → List ℚ) :
    List.zipWith (fun u v => u ++ v) (cs.map f) (cs.map g) =
      cs.map (fun c => f c ++ g c) := by
  induction cs with
  | nil => rfl
  | cons a t ih => simp only [List.map_cons, List.zipWith_cons_cons, ih]

lemma catFeats_cons_cons (x y : List (List ℚ)) (rest : List (List (List ℚ))) :
    catFeats (x :: y :: rest) =
      List.zipWith (fun u v => u ++ v) x (catFeats (y :: rest)) := rfl

lemma catFeats_transpose {α β : Type} (F : α → β → List ℚ) :
    ∀ (ls : List α) (cs : List β), ls ≠ [] →
      catFeats (ls.map (fun a => cs.map (F a))) =
        cs.map (fun c => (ls.map (fun a => F a c)).flatten) := by
  intro ls
  induction ls with
  | nil => intro cs h; exact absurd rfl h
  | cons a t ih =>
    intro cs _
    cases t with
    | nil => simp [catFeats]
    | cons b u =>
      have hmap : List.map (fun a => cs.map (F a)) (a :: b :: u) =
          cs.map (F a) :: cs.map (F b) ::
            List.map (fun a => cs.map (F a)) u := by simp
      have hmap2 : cs.map (F b) :: List.map (fun a => cs.map (F a)) u =
          List.map (fun a => cs.map (F a)) (b :: u) := by simp
      rw [hmap, catFeats_cons_cons, hmap2, ih cs (List.cons_ne_nil b u),
        zipWith_append_map]
      apply List.map_congr_left
      intro x _
      simp

lemma join_length_uniform (k : ℕ) :
    ∀ l : List (List ℚ), (∀ r ∈ l, r.length = k) →
      l.flatten.length = l.length * k := by
  intro l
  induction l with
  | nil => intro _; simp
  | cons r t ih =>
    intro hall
    rw [List.flatten_cons, List.length_append,
      ih (fun x hx => hall x (List.mem_cons_of_mem _ hx)),
      hall r (List.mem_cons_self _ _), List.length_cons]
    ring

lemma chunkRows_join (w : ℕ) :
    ∀ rows : List (List ℚ), (∀ r ∈ rows, r.length = w) →
      chunkRows rows.length w rows.flatten = rows := by
  intro rows
  induction rows with
  | nil => intro _; rfl
  | cons r t ih =>
    intro hall
    have hr : r.length = w := hall r (List.mem_cons_self _ _)
    have htake : (r ++ t.flatten).take w = r := by
      rw [← hr]; exact List.take_left r t.flatten
    have hdrop : (r ++ t.flatten).drop w = t.flatten := by
      rw [← hr]; exact List.drop_left r t.flatten
    show (r ++ t.flatten).take w :: chunkRows t.length w ((r ++ t.flatten).drop w) =
      r :: t
    rw [htake, hdrop, ih (fun x hx => hall x (List.mem_cons_of_mem _ hx))]

lemma mem_enum_facts {l : List ℕ} {i r : ℕ} (h : (i, r) ∈ l.enum) :
    i < l.length ∧ r = l.getD i 0 ∧ r ∈ l := by
  obtain ⟨hlt, heq⟩ := List.mem_enum h
  exact ⟨hlt, by rw [heq, List.getD_eq_getElem l 0 hlt],
    heq ▸ List.getElem_mem hlt⟩

lemma mem_enum_take {l : List ℕ} {k i r : ℕ} (h : (i, r) ∈ (l.take k).enum) :
    i < k ∧ i < l.length ∧ r = l.getD i 0 ∧ r ∈ l := by
  obtain ⟨hlt, heq⟩ := List.mem_enum h
  rw [List.length_take] at hlt
  have hi1 : i < k := lt_of_lt_of_le hlt (min_le_left _ _)
  have hi2 : i < l.length := lt_of_lt_of_le hlt (min_le_right _ _)
  have heq2 : r = l[i] := by rw [heq]; exact List.getElem_take l
  exact ⟨hi1, hi2, by rw [heq2, List.getD_eq_getElem l 0 hi2],
    heq2 ▸ List.getElem_mem hi2⟩

lemma levelFeat_length (codebook : List (List ℚ)) (F first size res bw : ℕ)
    (hres : 2 ≤ res) (hF : FeatsOK codebook F)
    (hsize : size = min (res ^ 3) (2 ^ bw))
    (hseg : first + size ≤ codebook.length) (p : ℚ × ℚ × ℚ) :
    (levelFeat codebook first size res bw p).length = F := by
  rw [levelFeat, interpCell]
  apply vsum_length
  · show List.zipWith _ _ _ ≠ []
    simp [triCoeffs, points_to_corners, cornerOffsets, List.zipWith_cons_cons]
  · intro v hv
    obtain ⟨w, _, crn, hcrn, rfl⟩ := exists_of_mem_zipWith hv
    rw [smul_length]
    obtain ⟨⟨h1, h2⟩, ⟨h3, h4⟩, h5, h6⟩ :=
      corner_coords_signed_mem res hres p crn hcrn
    obtain ⟨s0, s1⟩ := gridSlot_wrap_in_segment res bw hres crn h1 h2 h3 h4 h5 h6
    exact hF _ (fetch_mem_wrap codebook first size _
      (by rw [hsize]; exact s0) (by rw [hsize]; exact s1) hseg)

lemma hashgrid_naive_transposed (coords : List (ℚ × ℚ × ℚ))
    (resolutions : List ℕ) (bw lod_idx : ℕ) (codebook : List (List ℚ))
    (sizes first_idx : List ℕ) (hlod : lod_idx < resolutions.length) :
    hashgrid_naive coords resolutions bw lod_idx codebook sizes first_idx =
      coords.map (fun p => (((resolutions.take (lod_idx + 1)).enum).map
        (fun ir => levelFeat codebook (first_idx.getD ir.1 0)
          (sizes.getD ir.1 0) ir.2 bw p)).flatten) := by
  have hne : ((resolutions.take (lod_idx + 1)).enum) ≠ [] := by
    apply List.ne_nil_of_length_pos
    rw [List.enum_length, List.length_take]
    omega
  rw [hashgrid_naive]
  have h := catFeats_transpose
    (fun ir p => levelFeat codebook (first_idx.getD ir.1 0)
      (sizes.getD ir.1 0) ir.2 bw p)
    ((resolutions.take (lod_idx + 1)).enum) coords hne
  exact h

lemma hashgrid_naive_row_length (coords : List (ℚ × ℚ × ℚ))
    (resolutions : List ℕ) (bw lod_idx : ℕ) (codebook : List (List ℚ))
    (sizes first_idx : List ℕ) (F : ℕ)
    (hlod : lod_idx < resolutions.length)
    (hres : ∀ r ∈ resolutions, 2 ≤ r)
    (hF : FeatsOK codebook F)
    (hseg : SegmentsOK codebook resolutions sizes first_idx bw) :
    (hashgrid_naive coords resolutions bw lod_idx codebook sizes
        first_idx).length = coords.length ∧
    ∀ row ∈ hashgrid_naive coords resolutions bw lod_idx codebook sizes
        first_idx, row.length = F * (lod_idx + 1) := by
  rw [hashgrid_naive_transposed coords resolutions bw lod_idx codebook sizes
    first_idx hlod]
  refine ⟨List.length_map _ _, ?_⟩
  intro row hrow
  obtain ⟨p, _, rfl⟩ := List.mem_map.mp hrow
  have hall : ∀ r ∈ ((resolutions.take (lod_idx + 1)).enum).map
      (fun ir => levelFeat codebook (first_idx.getD ir.1 0)
        (sizes.getD ir.1 0) ir.2 bw p), r.length = F := by
    intro r hr
    obtain ⟨ir, hirmem, rfl⟩ := List.mem_map.mp hr
    obtain ⟨hik, hiL, hgetD, hrmem⟩ := mem_enum_take hirmem
    obtain ⟨hs1, hs2⟩ := hseg ir.1 hiL
    exact levelFeat_length codebook F _ _ ir.2 bw (hres _ hrmem) hF
      (by rw [hs1, ← hgetD]) hs2 p
  rw [join_length_uniform F _ hall, List.length_map, List.enum_length,
    List.length_take, min_eq_left (by omega), Nat.mul_comm]

lemma hashgrid_cuda_row_length (coords : List (ℚ × ℚ × ℚ))
    (codebook : List (List ℚ)) (first_idx resolutions : List ℕ)
    (bw F : ℕ) (sizes : List ℕ)
    (hres : ∀ r ∈ resolutions, 2 ≤ r)
    (hF : FeatsOK codebook F)
    (hseg : SegmentsOK codebook resolutions sizes first_idx bw) :
    (hashgrid_interpolate_cuda coords codebook first_idx resolutions
        bw).length = coords.length ∧
    ∀ row ∈ hashgrid_interpolate_cuda coords codebook first_idx resolutions bw,
      row.length = resolutions.length * F := by
  rw [hashgrid_interpolate_cuda]
  refine ⟨List.length_map _ _, ?_⟩
  intro row hrow
  obtain ⟨p, _, rfl⟩ := List.mem_map.mp hrow
  have hall : ∀ r ∈ resolutions.enum.map (fun ir =>
      levelFeat codebook (first_idx.getD ir.1 0) (min (ir.2 ^ 3) (2 ^ bw))
        ir.2 bw p), r.length = F := by
    intro r hr
    obtain ⟨ir, hirmem, rfl⟩ := List.mem_map.mp hr
    obtain ⟨hiL, hgetD, hrmem⟩ := mem_enum_facts hirmem
    obtain ⟨hs1, hs2⟩ := hseg ir.1 hiL
    refine levelFeat_length codebook F _ _ ir.2 bw (hres _ hrmem) hF rfl ?_ p
    rw [hgetD, ← hs1]
    exact hs2
  rw [join_length_uniform F _ hall, List.length_map, List.enum_length]

lemma hashgrid_eval (coords : List (ℚ × ℚ × ℚ)) (resolutions : List ℕ)
    (bw lod_idx : ℕ) (codebook : List (List ℚ)) (sizes first_idx : List ℕ)
    (hguard : ¬ (codebook.headD []).length % 2 = 1) :
    hashgrid coords resolutions bw lod_idx codebook sizes first_idx =
      match reshape2d
          (hashgrid_interpolate_cuda coords codebook first_idx resolutions bw)
          coords.length ((codebook.headD []).length * resolutions.length) with
      | some out => Except.ok out
      | none => Except.error (reshapeMsg) := by
  rw [hashgrid, HashGridInterpolate.forward, if_neg hguard]

lemma hashgrid_ok_kernel (coords : List (ℚ × ℚ × ℚ)) (resolutions : List ℕ)
    (bw lod_idx : ℕ) (codebook : List (List ℚ)) (sizes first_idx : List ℕ)
    (F : ℕ)
    (hres : ∀ r ∈ resolutions, 2 ≤ r)
    (hF : FeatsOK codebook F)
    (hseg : SegmentsOK codebook resolutions sizes first_idx bw)
    (hcb : codebook ≠ [])
    (heven : F % 2 = 0) :
    hashgrid coords resolutions bw lod_idx codebook sizes first_idx =
      Except.ok
        (hashgrid_interpolate_cuda coords codebook first_idx resolutions bw) := by
  have hw : (codebook.headD []).length = F := by
    cases codebook with
    | nil => exact absurd rfl hcb
    | cons h t => exact hF h (List.mem_cons_self _ _)
  obtain ⟨hklen, hkrow⟩ := hashgrid_cuda_row_length coords codebook first_idx
    resolutions bw F sizes hres hF hseg
  rw [hashgrid_eval coords resolutions bw lod_idx codebook sizes first_idx
    (by omega)]
  have hok : reshape2d
      (hashgrid_interpolate_cuda coords codebook first_idx resolutions bw)
      coords.length ((codebook.headD []).length * resolutions.length) =
      some (hashgrid_interpolate_cuda coords codebook first_idx resolutions
        bw) := by
    rw [reshape2d, hw]
    have hcond : (hashgrid_interpolate_cuda coords codebook first_idx
        resolutions bw).flatten.length =
        coords.length * (F * resolutions.length) := by
      rw [join_length_uniform (resolutions.length * F) _ hkrow, hklen]
      ring
    rw [if_pos hcond]
    have hN : coords.length = (hashgrid_interpolate_cuda coords codebook
        first_idx resolutions bw).length := hklen.symm
    rw [hN]
    exact congrArg some (chunkRows_join (F * resolutions.length) _
      (fun r hr => by rw [hkrow r hr]; ring))
  rw [hok]

lemma hashgrid_cuda_eq_naive_top (coords : List (ℚ × ℚ × ℚ))
    (resolutions : List ℕ) (bw : ℕ) (codebook : List (List ℚ))
    (sizes first_idx : List ℕ)
    (hseg : SegmentsOK codebook resolutions sizes first_idx bw)
    (hne : resolutions ≠ []) :
    hashgrid_interpolate_cuda coords codebook first_idx resolutions bw =
      hashgrid_naive coords resolutions bw (resolutions.length - 1) codebook
        sizes first_idx := by
  have hLpos : 0 < resolutions.length := List.length_pos.mpr hne
  have htake : resolutions.take ((resolutions.length - 1) + 1) = resolutions := by
    have hsucc : resolutions.length - 1 + 1 = resolutions.length := by omega
    rw [hsucc, List.take_length]
  rw [hashgrid_naive_transposed coords resolutions bw (resolutions.length - 1)
    codebook sizes first_idx (by omega), htake, hashgrid_interpolate_cuda]
  apply List.map_congr_left
  intro p _
  apply congrArg List.flatten
  apply List.map_congr_left
  rintro ⟨i, r⟩ hmem
  obtain ⟨hiL, hgetD, hrmem⟩ := mem_enum_facts hmem
  obtain ⟨hs1, hs2⟩ := hseg i hiL
  show levelFeat codebook (first_idx.getD i 0) (min (r ^ 3) (2 ^ bw)) r bw p =
    levelFeat codebook (first_idx.getD i 0) (sizes.getD i 0) r bw p
  rw [hs1, ← hgetD]

/-! ### Claim theorems: batch shape and forward equivalence -/

/-- C1 (amended): the reference encoder returns one row per input
coordinate, of width `F * (lod_idx + 1)`, the per-level features
concatenated in ascending level order for levels `0..lod_idx`; the
accelerated encoder, whose kernel receives no `lod_idx`, returns rows
of width `F * len(resolutions)` (all levels), so the two widths agree
only when `lod_idx` selects the last level. -/
theorem encoder_batch_shape (coords : List (ℚ × ℚ × ℚ))
    (resolutions : List ℕ) (bw lod_idx : ℕ) (codebook : List (List ℚ))
    (sizes first_idx : List ℕ) (F : ℕ)
    (hlod : lod_idx < resolutions.length)
    (hres : ∀ r ∈ resolutions, 2 ≤ r)
    (hF : FeatsOK codebook F)
    (hseg : SegmentsOK codebook resolutions sizes first_idx bw)
    (hcb : codebook ≠ [])
    (heven : F % 2 = 0) :
    (hashgrid_naive coords resolutions bw lod_idx codebook sizes first_idx =
        coords.map (fun p => (((resolutions.take (lod_idx + 1)).enum).map
          (fun ir => levelFeat codebook (first_idx.getD ir.1 0)
            (sizes.getD ir.1 0) ir.2 bw p)).flatten) ∧
      (hashgrid_naive coords resolutions bw lod_idx codebook sizes
          first_idx).length = coords.length ∧
      ∀ row ∈ hashgrid_naive coords resolutions bw lod_idx codebook sizes
          first_idx, row.length = F * (lod_idx + 1)) ∧
    ∃ accel, hashgrid coords resolutions bw lod_idx codebook sizes first_idx
        = Except.ok accel ∧ accel.length = coords.length ∧
      ∀ row ∈ accel, row.length = F * resolutions.length := by
  obtain ⟨hlen, hrow⟩ := hashgrid_naive_row_length coords resolutions bw
    lod_idx codebook sizes first_idx F hlod hres hF hseg
  obtain ⟨hklen, hkrow⟩ := hashgrid_cuda_row_length coords codebook first_idx
    resolutions bw F sizes hres hF hseg
  refine ⟨⟨hashgrid_naive_transposed coords resolutions bw lod_idx codebook
    sizes first_idx hlod, hlen, hrow⟩, _,
    hashgrid_ok_kernel coords resolutions bw lod_idx codebook sizes first_idx
      F hres hF hseg hcb heven, hklen, ?_⟩
  intro row hr
  rw [hkrow row hr]
  exact Nat.mul_comm _ _

theorem encoder_batch_shape_witness :
    ∃ accel, hashgrid [((0 : ℚ), (0 : ℚ), (0 : ℚ))] [2, 2] 4 0
        (List.replicate 16 [0, 0]) [8, 8] [0, 8] = Except.ok accel ∧
      accel.length = [((0 : ℚ), (0 : ℚ), (0 : ℚ))].length ∧
      ∀ row ∈ accel, row.length = 2 * [2, 2].length :=
  (encoder_batch_shape [((0 : ℚ), (0 : ℚ), (0 : ℚ))] [2, 2] 4 0
    (List.replicate 16 [0, 0]) [8, 8] [0, 8] 2 (by decide) (by decide)
    (by decide) (by decide) (by decide) (by decide)).2

/-- C1 (counterexample to the claim as stated): a concrete accelerated
call with two levels and `lod_idx = 0` returns a row of width 4, not
`F * (lod_idx + 1) = 2`. -/
theorem accelerated_width_counterexample :
    ∃ accel, hashgrid [((0 : ℚ), (0 : ℚ), (0 : ℚ))] [2, 2] 4 0
        (List.replicate 16 [0, 0]) [8, 8] [0, 8] = Except.ok accel ∧
      ∃ row ∈ accel, row.length ≠ 2 * (0 + 1) := by
  have hok := hashgrid_ok_kernel [((0 : ℚ), (0 : ℚ), (0 : ℚ))] [2, 2] 4 0
    (List.replicate 16 [0, 0]) [8, 8] [0, 8] 2 (by decide) (by decide)
    (by decide) (by decide) (by decide)
  obtain ⟨hklen, hkrow⟩ := hashgrid_cuda_row_length
    [((0 : ℚ), (0 : ℚ), (0 : ℚ))] (List.replicate 16 [0, 0]) [0, 8] [2, 2] 4 2
    [8, 8] (by decide) (by decide) (by decide)
  refine ⟨_, hok, ?_⟩
  have hne : hashgrid_interpolate_cuda [((0 : ℚ), (0 : ℚ), (0 : ℚ))]
      (List.replicate 16 [0, 0]) [0, 8] [2, 2] 4 ≠ [] := by
    apply List.ne_nil_of_length_pos
    rw [hklen]
    decide
  obtain ⟨row, hrowmem⟩ := List.exists_mem_of_ne_nil _ hne
  refine ⟨row, hrowmem, ?_⟩
  rw [hkrow row hrowmem]
  decide

/-- C8 (amended): the accelerated encoder equals the reference encoder
evaluated at the last level of the schedule, for every input; hence the
two paths compute the same function exactly when `lod_idx` selects the
last level (the kernel receives no `lod_idx` and always evaluates every
level). -/
theorem accelerated_equals_reference_at_top_lod (coords : List (ℚ × ℚ × ℚ))
    (resolutions : List ℕ) (bw lod_idx : ℕ) (codebook : List (List ℚ))
    (sizes first_idx : List ℕ) (F : ℕ)
    (hres : ∀ r ∈ resolutions, 2 ≤ r)
    (hF : FeatsOK codebook F)
    (hseg : SegmentsOK codebook resolutions sizes first_idx bw)
    (hcb : codebook ≠ [])
    (heven : F % 2 = 0)
    (hne : resolutions ≠ []) :
    hashgrid coords resolutions bw lod_idx codebook sizes first_idx =
      Except.ok (hashgrid_naive coords resolutions bw
        (resolutions.length - 1) codebook sizes first_idx) ∧
    (lod_idx = resolutions.length - 1 →
      hashgrid coords resolutions bw lod_idx codebook sizes first_idx =
        Except.ok (hashgrid_naive coords resolutions bw lod_idx codebook
          sizes first_idx)) := by
  have h1 := hashgrid_ok_kernel coords resolutions bw lod_idx codebook sizes
    first_idx F hres hF hseg hcb heven
  have h2 := hashgrid_cuda_eq_naive_top coords resolutions bw codebook sizes
    first_idx hseg hne
  constructor
  · rw [h1, h2]
  · intro hl
    rw [h1, h2, hl]

theorem accelerated_equals_reference_at_top_lod_witness :
    hashgrid [((0 : ℚ), (0 : ℚ), (0 : ℚ))] [2, 2] 4 1
        (List.replicate 16 [0, 0]) [8, 8] [0, 8] =
      Except.ok (hashgrid_naive [((0 : ℚ), (0 : ℚ), (0 : ℚ))] [2, 2] 4
        ([2, 2].length - 1) (List.replicate 16 [0, 0]) [8, 8] [0, 8]) ∧
    ((1 : ℕ) = [2, 2].length - 1 →
      hashgrid [((0 : ℚ), (0 : ℚ), (0 : ℚ))] [2, 2] 4 1
          (List.replicate 16 [0, 0]) [8, 8] [0, 8] =
        Except.ok (hashgrid_naive [((0 : ℚ), (0 : ℚ), (0 : ℚ))] [2, 2] 4 1
          (List.replicate 16 [0, 0]) [8, 8] [0, 8])) :=
  accelerated_equals_reference_at_top_lod [((0 : ℚ), (0 : ℚ), (0 : ℚ))]
    [2, 2] 4 1 (List.replicate 16 [0, 0]) [8, 8] [0, 8] 2 (by decide)
    (by decide) (by decide) (by decide) (by decide) (by decide)

/-- C8 (counterexample to the claim as stated): at `lod_idx = 0` with a
two-level schedule, the accelerated output is not the reference output
(their widths already differ: 4 versus 2). -/
theorem accelerated_reference_mismatch_counterexample :
    hashgrid [((0 : ℚ), (0 : ℚ), (0 : ℚ))] [2, 2] 4 0
        (List.replicate 16 [0, 0]) [8, 8] [0, 8] ≠
      Except.ok (hashgrid_naive [((0 : ℚ), (0 : ℚ), (0 : ℚ))] [2, 2] 4 0
        (List.replicate 16 [0, 0]) [8, 8] [0, 8]) := by
  have hok := hashgrid_ok_kernel [((0 : ℚ), (0 : ℚ), (0 : ℚ))] [2, 2] 4 0
    (List.replicate 16 [0, 0]) [8, 8] [0, 8] 2 (by decide) (by decide)
    (by decide) (by decide) (by decide)
  obtain ⟨hklen, hkrow⟩ := hashgrid_cuda_row_length
    [((0 : ℚ), (0 : ℚ), (0 : ℚ))] (List.replicate 16 [0, 0]) [0, 8] [2, 2] 4 2
    [8, 8] (by decide) (by decide) (by decide)
  obtain ⟨hnlen, hnrow⟩ := hashgrid_naive_row_length
    [((0 : ℚ), (0 : ℚ), (0 : ℚ))] [2, 2] 4 0 (List.replicate 16 [0, 0])
    [8, 8] [0, 8] 2 (by decide) (by decide) (by decide) (by decide)
  intro heq
  rw [hok] at heq
  have hkeq := Except.ok.inj heq
  have hne : hashgrid_interpolate_cuda [((0 : ℚ), (0 : ℚ), (0 : ℚ))]
      (List.replicate 16 [0, 0]) [0, 8] [2, 2] 4 ≠ [] := by
    apply List.ne_nil_of_length_pos
    rw [hklen]
    decide
  obtain ⟨row, hrowmem⟩ := List.exists_mem_of_ne_nil _ hne
  have h4 := hkrow row hrowmem
  have h2 := hnrow row (hkeq ▸ hrowmem)
  rw [h4] at h2
  exact absurd h2 (by decide)
